import Mathlib

set_option maxRecDepth 8000

/-!
# Verification of the claude-flow routing / attention core

A shallow embedding of the two algorithmic subsystems of the repository:

* the tabular Q-learning task router
  (v3/@claude-flow/cli/src/commands/index.ts, class QLearningRouter), and
* the tiled ("flash") attention engine
  (v3/@claude-flow/cli/src/ruvector/flash-attention.ts, class FlashAttention).

Modelling conventions:

* JavaScript 64-bit floats are modelled by exact rationals; Math.exp is kept
  as an explicit function parameter E (the equivalence results hold for every
  E that is positive and turns addition into multiplication, which the real
  exponential is).
* JavaScript Map objects are modelled by association lists with insertion
  order: setting an existing key replaces the entry in place, setting a new
  key appends (the Map iteration-order semantics).
* Date.now() is modelled by an explicit natural-number timestamp argument.
* Math.random() is modelled by an explicit stream (list) of rationals drawn
  from; short-circuit evaluation of the JS conditionals is preserved, so a
  draw only consumes the stream when the code actually calls Math.random().
* -Infinity (the initial running maximum of both softmax loops) is modelled
  by the none case of an Option.
-/

/-! ## Generic list helpers (used by both subsystems) -/

/-- The running-maximum step of the JS loops
`if (x > m) m = x` with `m` starting at -Infinity (modelled as none). -/
def maxStep (m : Option ℚ) (x : ℚ) : Option ℚ :=
  match m with
  | none => some x
  | some v => some (if x > v then x else v)

/-- Left fold of maxStep over a list starting from -Infinity: the value the
JS max-loops compute. -/
def listMaxO (l : List ℚ) : Option ℚ :=
  l.foldl maxStep none

/-- Math.max on two possibly -Infinity values. -/
def combineO (a b : Option ℚ) : Option ℚ :=
  match a, b with
  | none, b => b
  | some x, none => some x
  | some x, some y => some (max x y)

theorem maxStep_some (v x : ℚ) : maxStep (some v) x = some (max v x) := by
  simp only [maxStep]
  rcases lt_or_ge v x with h | h
  · simp [h, max_eq_right h.le]
  · have : ¬ x > v := not_lt.mpr h
    simp [this, max_eq_left h]

theorem foldl_maxStep_some (l : List ℚ) : ∀ a : ℚ,
    l.foldl maxStep (some a) = some (l.foldl max a) := by
  induction l with
  | nil => intro a; rfl
  | cons x xs ih =>
    intro a
    simp only [List.foldl_cons, maxStep_some, ih]

theorem foldl_max_comm (l : List ℚ) : ∀ a x : ℚ,
    l.foldl max (max a x) = max a (l.foldl max x) := by
  induction l with
  | nil => intro a x; rfl
  | cons y ys ih =>
    intro a x
    simp only [List.foldl_cons, max_assoc, ih]

theorem listMaxO_nil : listMaxO [] = none := rfl

theorem listMaxO_cons (x : ℚ) (xs : List ℚ) :
    listMaxO (x :: xs) = some (xs.foldl max x) := by
  simp [listMaxO, List.foldl_cons, maxStep, foldl_maxStep_some]

theorem listMaxO_eq_none_iff (l : List ℚ) : listMaxO l = none ↔ l = [] := by
  cases l with
  | nil => simp [listMaxO_nil]
  | cons x xs => simp [listMaxO_cons]

theorem listMaxO_append (l₁ l₂ : List ℚ) :
    listMaxO (l₁ ++ l₂) = combineO (listMaxO l₁) (listMaxO l₂) := by
  cases l₁ with
  | nil => simp [listMaxO_nil, combineO]
  | cons x xs =>
    cases l₂ with
    | nil => simp [listMaxO_cons, listMaxO_nil, combineO]
    | cons y ys =>
      simp only [List.cons_append, listMaxO_cons, combineO]
      rw [List.foldl_append, List.foldl_cons]
      exact congrArg some (foldl_max_comm ys _ y)

theorem le_foldl_max (l : List ℚ) : ∀ a : ℚ, a ≤ l.foldl max a := by
  induction l with
  | nil => intro a; exact le_refl a
  | cons x xs ih =>
    intro a
    calc a ≤ max a x := le_max_left a x
    _ ≤ xs.foldl max (max a x) := ih (max a x)
    _ = (x :: xs).foldl max a := by rw [List.foldl_cons]

theorem mem_le_foldl_max (l : List ℚ) : ∀ (a x : ℚ), x ∈ l → x ≤ l.foldl max a := by
  induction l with
  | nil => intro a x hx; cases hx
  | cons y ys ih =>
    intro a x hx
    rcases List.mem_cons.mp hx with h | h
    · subst h
      calc x ≤ max a x := le_max_right a x
      _ ≤ ys.foldl max (max a x) := le_foldl_max ys (max a x)
      _ = (x :: ys).foldl max a := by rw [List.foldl_cons]
    · exact ih (max a y) x h

/-- A nonempty list of positive rationals has positive sum. -/
theorem sum_pos_of_pos (l : List ℚ) (hne : l ≠ []) (hpos : ∀ x ∈ l, 0 < x) :
    0 < l.sum := by
  cases l with
  | nil => exact absurd rfl hne
  | cons x xs =>
    have hx : 0 < x := hpos x (List.mem_cons_self x xs)
    have hxs : 0 ≤ xs.sum := by
      apply List.sum_nonneg
      intro y hy
      exact (hpos y (List.mem_cons_of_mem x hy)).le
    simp only [List.sum_cons]
    linarith

theorem list_sum_map_mul_right {α : Type} (l : List α) (f : α → ℚ) (c : ℚ) :
    (l.map f).sum * c = (l.map (fun x => f x * c)).sum := by
  induction l with
  | nil => simp
  | cons x xs ih =>
    simp only [List.map_cons, List.sum_cons, add_mul, ih]

/-! ## The Q-learning router (QLearningRouter, commands/index.ts)

Strings are used for task texts; charCodeAt is modelled by Char.toNat
(identical on the basic multilingual plane, which is all the claims need).
-/

/-- Exploration decay type (config field explorationDecayType). -/
inductive DecayType where
  | linear
  | exponential
  | cosine
deriving DecidableEq, Repr

/-- QLearningRouterConfig (numeric fields as exact rationals). -/
structure QLearningRouterConfig where
  learningRate : ℚ
  gamma : ℚ
  explorationInitial : ℚ
  explorationFinal : ℚ
  explorationDecay : ℚ
  explorationDecayType : DecayType
  maxStates : ℕ
  numActions : ℕ
  replayBufferSize : ℕ
  replayBatchSize : ℕ
  enableReplay : Bool
  cacheSize : ℕ
  cacheTTL : ℕ
  autoSaveInterval : ℕ
  stateSpaceDim : ℕ
deriving DecidableEq, Repr

/-- DEFAULT_CONFIG from the source. -/
def DEFAULT_CONFIG : QLearningRouterConfig :=
  { learningRate := 1/10
  , gamma := 99/100
  , explorationInitial := 1
  , explorationFinal := 1/100
  , explorationDecay := 10000
  , explorationDecayType := DecayType.exponential
  , maxStates := 10000
  , numActions := 8
  , replayBufferSize := 1000
  , replayBatchSize := 32
  , enableReplay := true
  , cacheSize := 256
  , cacheTTL := 300000
  , autoSaveInterval := 100
  , stateSpaceDim := 64 }

/-- ROUTE_NAMES from the source. -/
def ROUTE_NAMES : List String :=
  ["coder", "tester", "reviewer", "architect", "researcher", "optimizer",
   "debugger", "documenter"]

/-- Q-table entry (QEntry; the optional eligibility trace is declared in the
source but never written or read, so it is omitted). -/
structure QEntry where
  qValues : List ℚ
  visits : ℕ
  lastUpdate : ℕ
deriving DecidableEq, Repr

/-- Route decision result (RouteDecision). -/
structure RouteDecision where
  route : String
  confidence : ℚ
  qValues : List ℚ
  explored : Bool
  alternatives : List (String × ℚ)
deriving DecidableEq, Repr

/-- Experience tuple for the replay buffer. -/
structure Experience where
  stateKey : String
  actionIdx : ℕ
  reward : ℚ
  nextStateKey : Option String
  timestamp : ℕ
  priority : ℚ
deriving DecidableEq, Repr

/-- Cache entry for route decisions (CacheEntry). -/
structure CacheEntry where
  decision : RouteDecision
  timestamp : ℕ
  hits : ℕ
deriving DecidableEq, Repr

/-- Entry of the persisted model's qTable record (what export() produces
and what the inverse operation consumes). -/
structure ExportEntry where
  qValues : List ℚ
  visits : ℕ
deriving DecidableEq, Repr

/-- The mutable fields of a QLearningRouter instance. -/
structure RouterState where
  qTable : List (String × QEntry)
  epsilon : ℚ
  stepCount : ℕ
  updateCount : ℕ
  avgTDError : ℚ
  replayBuffer : List Experience
  replayBufferIdx : ℕ
  totalExperiences : ℕ
  routeCache : List (String × CacheEntry)
  cacheOrder : List String
  cacheHits : ℕ
  cacheMisses : ℕ
  featureHashCache : List (String × List ℚ)
deriving DecidableEq, Repr

/-- The state of a freshly constructed router. -/
def initState (cfg : QLearningRouterConfig) : RouterState :=
  { qTable := []
  , epsilon := cfg.explorationInitial
  , stepCount := 0
  , updateCount := 0
  , avgTDError := 0
  , replayBuffer := []
  , replayBufferIdx := 0
  , totalExperiences := 0
  , routeCache := []
  , cacheOrder := []
  , cacheHits := 0
  , cacheMisses := 0
  , featureHashCache := [] }

/-! ### Association-list model of a JS Map -/

/-- Map.get. -/
def alistGet {α : Type} (l : List (String × α)) (k : String) : Option α :=
  match l with
  | [] => none
  | p :: rest => if p.1 = k then some p.2 else alistGet rest k

/-- Map.set: replace in place when the key exists (the Map keeps the key's
original iteration position), append otherwise. -/
def alistSet {α : Type} (l : List (String × α)) (k : String) (v : α) :
    List (String × α) :=
  match l with
  | [] => [(k, v)]
  | p :: rest => if p.1 = k then (k, v) :: rest else p :: alistSet rest k v

/-! ### State encoding (hashState) -/

/-- ToInt32 wrap-around of JS bitwise operations. -/
def toInt32 (z : ℤ) : ℤ :=
  (z + 2 ^ 31) % 2 ^ 32 - 2 ^ 31

/-- One iteration of the hash loop:
hash = ((hash << 5) - hash) + char; hash = hash & hash. -/
def hashStep (h : ℤ) (c : ℕ) : ℤ :=
  toInt32 (toInt32 (h * 32) - h + c)

/-- hashState: the state key of a task text. -/
def hashState (context : String) : String :=
  "state_" ++ toString (context.data.foldl (fun h c => hashStep h c.toNat) 0)

/-! ### Q-value lookup and policy helpers -/

/-- getQValues: values for a state key; a missing key reads as all zeros
without creating an entry. -/
def getQValues (table : List (String × QEntry)) (stateKey : String)
    (numActions : ℕ) : List ℚ :=
  match alistGet table stateKey with
  | none => List.replicate numActions 0
  | some entry => entry.qValues

/-- The loop body of argmax: scan with strict `>` so that ties keep the
earlier index. -/
def argmaxAux : List ℚ → ℕ → ℕ → ℚ → ℕ
  | [], _, mIdx, _ => mIdx
  | v :: rest, i, mIdx, mVal =>
    if v > mVal then argmaxAux rest (i + 1) i v
    else argmaxAux rest (i + 1) mIdx mVal

/-- argmax: index of the maximum value, ties broken by lowest index
(returns 0 on the empty list, as the JS loop does). -/
def argmaxQ (values : List ℚ) : ℕ :=
  match values with
  | [] => 0
  | v :: rest => argmaxAux rest 1 0 v

/-- softmaxConfidence with the max-subtraction; division by a zero sum is the
ℚ-convention 0 (the JS code would produce NaN there; the claims never hit
this case because E is positive). -/
def softmaxConfidence (E : ℚ → ℚ) (qValues : List ℚ) (actionIdx : ℕ) : ℚ :=
  match listMaxO qValues with
  | none => 0
  | some maxQ =>
    let expValues := qValues.map (fun q => E (q - maxQ))
    let sumExp := expValues.sum
    expValues.getD actionIdx 0 / sumExp

/-- Stable descending insertion by score, the behaviour of the (stable) JS
Array.sort with comparator (a, b) => b.score - a.score. -/
def insertByScore (x : String × ℚ) :
    List (String × ℚ) → List (String × ℚ)
  | [] => [x]
  | y :: rest => if x.2 > y.2 then x :: y :: rest else y :: insertByScore x rest

/-- Stable descending sort by score. -/
def sortByScore : List (String × ℚ) → List (String × ℚ)
  | [] => []
  | x :: xs => insertByScore x (sortByScore xs)

/-- The alternatives list: all routes scored, sorted descending, positions
1 to 3. -/
def routeAlternatives (qValues : List ℚ) : List (String × ℚ) :=
  ((sortByScore ((List.range ROUTE_NAMES.length).map
    (fun idx => (ROUTE_NAMES.getD idx "", qValues.getD idx 0)))).drop 1).take 3

/-- ROUTE_NAMES[actionIdx] || 'coder'. -/
def routeNameOf (actionIdx : ℕ) : String :=
  ROUTE_NAMES.getD actionIdx "coder"

/-- Build the RouteDecision the way route() does once the action index is
chosen. -/
def mkDecision (E : ℚ → ℚ) (qValues : List ℚ) (actionIdx : ℕ)
    (explored : Bool) : RouteDecision :=
  { route := routeNameOf actionIdx
  , confidence := softmaxConfidence E qValues actionIdx
  , qValues := qValues
  , explored := explored
  , alternatives := routeAlternatives qValues }

/-- route(taskContext, explore).

The random stream is consumed exactly where the JS evaluates Math.random():
`explore && Math.random() < epsilon` short-circuits, so nothing is drawn when
explore is false.  Returns (decision, router state after the call, remaining
random stream); route() assigns no instance field, so the state is returned
unchanged. -/
def route (cfg : QLearningRouterConfig) (E : ℚ → ℚ) (s : RouterState)
    (taskContext : String) (explore : Bool) (rng : List ℚ) :
    RouteDecision × RouterState × List ℚ :=
  let stateKey := hashState taskContext
  if explore then
    let r := rng.headD 0
    let rng₁ := rng.tail
    if r < s.epsilon then
      -- random exploration
      let r₂ := rng₁.headD 0
      let rng₂ := rng₁.tail
      let actionIdx := (⌊r₂ * (cfg.numActions : ℚ)⌋).toNat
      let qValues := getQValues s.qTable stateKey cfg.numActions
      (mkDecision E qValues actionIdx true, s, rng₂)
    else
      let qValues := getQValues s.qTable stateKey cfg.numActions
      (mkDecision E qValues (argmaxQ qValues) false, s, rng₁)
  else
    let qValues := getQValues s.qTable stateKey cfg.numActions
    (mkDecision E qValues (argmaxQ qValues) false, s, rng)

/-! ### update() -/

/-- ROUTE_NAMES.indexOf(action), with -1 modelled as none. -/
def indexOfO (l : List String) (a : String) : Option ℕ :=
  match l with
  | [] => none
  | x :: rest =>
    if x = a then some 0 else (indexOfO rest a).map (· + 1)

/-- A fresh all-zero entry (getOrCreateEntry's creation case). -/
def freshEntry (cfg : QLearningRouterConfig) (now : ℕ) : QEntry :=
  { qValues := List.replicate cfg.numActions 0, visits := 0, lastUpdate := now }

/-- Stable ascending insertion by lastUpdate (JS stable sort with comparator
(a, b) => a.lastUpdate - b.lastUpdate). -/
def insertByLU (x : String × QEntry) :
    List (String × QEntry) → List (String × QEntry)
  | [] => [x]
  | y :: rest =>
    if x.2.lastUpdate ≤ y.2.lastUpdate then x :: y :: rest
    else y :: insertByLU x rest

/-- Stable ascending sort of the table entries by lastUpdate. -/
def sortByLU : List (String × QEntry) → List (String × QEntry)
  | [] => []
  | x :: xs => insertByLU x (sortByLU xs)

/-- The table after getOrCreateEntry: unchanged when the key is present, a
fresh all-zero entry appended (Map.set on a new key) when it is absent. -/
def getOrCreateTable (cfg : QLearningRouterConfig)
    (table : List (String × QEntry)) (stateKey : String) (now : ℕ) :
    List (String × QEntry) :=
  match alistGet table stateKey with
  | none => table ++ [(stateKey, freshEntry cfg now)]
  | some _ => table

/-- pruneQTable: sort by recency ascending and delete the oldest entries
until floor(maxStates * 0.8) remain (0.8 * n floors to 4n/5 for every table
size arising here). -/
def pruneQTable (cfg : QLearningRouterConfig)
    (table : List (String × QEntry)) : List (String × QEntry) :=
  let sorted := sortByLU table
  let toRemove := sorted.length - 4 * cfg.maxStates / 5
  let removedKeys := (sorted.take toRemove).map Prod.fst
  table.filter (fun p => !(removedKeys.contains p.1))

/-- Writing back the updated entry (in-place mutation of the Map entry)
followed by the conditional prune. -/
def updateTable (cfg : QLearningRouterConfig)
    (table₁ : List (String × QEntry)) (stateKey : String) (entry₂ : QEntry) :
    List (String × QEntry) :=
  let table₂ := alistSet table₁ stateKey entry₂
  if table₂.length > cfg.maxStates then pruneQTable cfg table₂ else table₂

/-- update(taskContext, action, reward, nextContext?) -> tdError.

Returns (tdError, new state). The replay buffer, route cache and their
counters are declared in the class but never touched by update() in the
source, so they pass through unchanged. -/
def update (cfg : QLearningRouterConfig) (s : RouterState)
    (taskContext : String) (action : String) (reward : ℚ)
    (nextContext : Option String) (now : ℕ) : ℚ × RouterState :=
  let stateKey := hashState taskContext
  match indexOfO ROUTE_NAMES action with
  | none => (0, s)
  | some actionIdx =>
    -- getOrCreateEntry: inserts a fresh entry when the key is absent
    let table₁ := getOrCreateTable cfg s.qTable stateKey now
    let entry := (alistGet table₁ stateKey).getD (freshEntry cfg now)
    let currentQ := entry.qValues.getD actionIdx 0
    let targetQ :=
      match nextContext with
      | some next =>
        let nextQValues := getQValues table₁ (hashState next) cfg.numActions
        let maxNextQ := (listMaxO nextQValues).getD 0
        reward + cfg.gamma * maxNextQ
      | none => reward
    let tdError := targetQ - currentQ
    let entry₂ : QEntry :=
      { qValues := entry.qValues.set actionIdx
          (currentQ + cfg.learningRate * tdError)
      , visits := entry.visits + 1
      , lastUpdate := now }
    let stepCount₂ := s.stepCount + 1
    let epsilon₂ := max cfg.explorationFinal
      (cfg.explorationInitial - (stepCount₂ : ℚ) / cfg.explorationDecay)
    let table₃ := updateTable cfg table₁ stateKey entry₂
    let updateCount₂ := s.updateCount + 1
    let avg₂ := (s.avgTDError * (s.updateCount : ℚ) + |tdError|) / (updateCount₂ : ℚ)
    (tdError,
      { s with
        qTable := table₃
        epsilon := epsilon₂
        stepCount := stepCount₂
        updateCount := updateCount₂
        avgTDError := avg₂ })

/-! ### export() / import() -/

/-- export(): the persisted qTable record (an association list in object-key
order). -/
def exportData (s : RouterState) : List (String × ExportEntry) :=
  s.qTable.map (fun p => (p.1, { qValues := p.2.qValues, visits := p.2.visits }))

/-- import(data): clear the table, then set every entry of the record;
each incoming entry's lastUpdate becomes the call time.  No field of the
data is validated and no statistics field is touched. -/
def importModel (s : RouterState) (data : List (String × ExportEntry))
    (now : ℕ) : RouterState :=
  { s with
    qTable := data.map (fun p =>
      (p.1, { qValues := p.2.qValues, visits := p.2.visits, lastUpdate := now })) }

/-! ## The tiled attention engine (FlashAttention, flash-attention.ts)

Vectors are lists of rationals; the scale factor
1 / (sqrt(dimensions) * temperature) is irrational in general and appears
identically in both code paths, so it is carried as an opaque parameter.
Math.exp is the function parameter E as explained above.
-/

/-- dotProduct: sums a[i] * b[i] over i < min(a.length, b.length).  The 4x
manual unrolling of the source regroups the same additions, which is the
identity map on exact rationals. -/
def dotProduct (a b : List ℚ) : ℚ :=
  ((a.zip b).map (fun p => p.1 * p.2)).sum

/-- The raw attention score of a query against one (key, value) pair. -/
def scoreKV (q : List ℚ) (scale : ℚ) (kv : List ℚ × List ℚ) : ℚ :=
  dotProduct q kv.1 * scale

/-- One query's softmax row and weighted-value combination of
naiveAttention: raw scores, stable softmax (max subtraction, normalize only
when the sum is positive), then the weighted sum of values.  Reading
values[j][d] is modelled with getD (see the instrumented version below for
the bounds-checked reading). -/
def naiveRow (E : ℚ → ℚ) (K V : List (List ℚ)) (dims : ℕ) (scale : ℚ)
    (q : List ℚ) : List ℚ :=
  let scores := K.map (fun k => dotProduct q k * scale)
  let weights :=
    match listMaxO scores with
    | none => ([] : List ℚ)
    | some m =>
      let exps := scores.map (fun sc => E (sc - m))
      let sum := exps.sum
      if sum > 0 then exps.map (fun e₁ => e₁ / sum) else exps
  (List.range dims).map (fun d =>
    ((weights.zip V).map (fun p => p.1 * p.2.getD d 0)).sum)

/-- naiveAttention: the direct quadratic computation. -/
def naiveAttention (E : ℚ → ℚ) (Q K V : List (List ℚ)) (scale : ℚ) :
    List (List ℚ) :=
  let dims := (Q.headD []).length
  Q.map (naiveRow E K V dims scale)

/-- Per-query online-softmax state: running max (none is the -Infinity
initialization), running sum of exponentials, and the unnormalized
weighted-value accumulator (a total function on component indices; only
indices below the dimension are ever read out). -/
structure OSState where
  m : Option ℚ
  sum : ℚ
  acc : ℕ → ℚ

/-- The initial online-softmax state of every query. -/
def initOS : OSState := { m := none, sum := 0, acc := fun _ => 0 }

/-- Processing one key block for one query
(computeBlockScores + onlineSoftmaxAccumulate): block scores, block max,
newMax = max(oldMax, blockMax), correction factor exp(oldMax - newMax)
(0 when oldMax is -Infinity), rescale the running sum and accumulator, then
add each key's exp(score - newMax) and exp(score - newMax) * value.  The
unreachable newMax = -Infinity case (blocks are never empty) returns the
state unchanged. -/
def processBlock (E : ℚ → ℚ) (q : List ℚ) (scale : ℚ) (st : OSState)
    (blk : List (List ℚ × List ℚ)) : OSState :=
  let scores := blk.map (scoreKV q scale)
  match combineO st.m (listMaxO scores) with
  | none => st
  | some newMax =>
    let correction :=
      match st.m with
      | none => 0
      | some oldMax => E (oldMax - newMax)
    { m := some newMax
    , sum := st.sum * correction + (blk.map (fun kv => E (scoreKV q scale kv - newMax))).sum
    , acc := fun d => st.acc d * correction
        + (blk.map (fun kv => E (scoreKV q scale kv - newMax) * kv.2.getD d 0)).sum }

/-- Split a list into consecutive blocks of size B (the index ranges
[kStart, kEnd) of the source's block loop); the fuel argument is the list
length, enough whenever B is at least 1. -/
def chunksF {α : Type} : ℕ → ℕ → List α → List (List α)
  | 0, _, _ => []
  | _ + 1, _, [] => []
  | fuel + 1, B, l => l.take B :: chunksF fuel B (l.drop B)

/-- The block decomposition of a list. -/
def chunks {α : Type} (B : ℕ) (l : List α) : List (List α) :=
  chunksF l.length B l

/-- One query of blockAttention: fold the online-softmax block step over the
key blocks (the source iterates key blocks in the outer loop and treats each
query of a query block independently, so per query the key blocks are
processed in ascending order), then normalize by the final sum when it is
positive. -/
def tiledRow (E : ℚ → ℚ) (K V : List (List ℚ)) (dims : ℕ) (scale : ℚ)
    (B : ℕ) (q : List ℚ) : List ℚ :=
  let st := (chunks B (K.zip V)).foldl (processBlock E q scale) initOS
  (List.range dims).map (fun d =>
    if st.sum > 0 then st.acc d / st.sum else st.acc d)

/-- blockAttention: the tiled computation. -/
def blockAttention (E : ℚ → ℚ) (Q K V : List (List ℚ)) (B : ℕ)
    (scale : ℚ) : List (List ℚ) :=
  let dims := (Q.headD []).length
  Q.map (tiledRow E K V dims scale B)

/-- The dispatch of attention(): block-tiled when
numQueries * numKeys > 1024, direct otherwise. -/
def attentionOutput (E : ℚ → ℚ) (Q K V : List (List ℚ)) (B : ℕ)
    (scale : ℚ) : List (List ℚ) :=
  if Q.length * K.length > 1024 then blockAttention E Q K V B scale
  else naiveAttention E Q K V scale

/-- validateInputs: reject empty inputs, a key/value count mismatch, and a
dimension mismatch measured on the FIRST vector of each input
(queries[0]?.length ?? 0, etc.). -/
def validateInputs (Q K V : List (List ℚ)) : Bool :=
  !(Q.isEmpty || K.isEmpty || V.isEmpty)
  && K.length == V.length
  && (Q.headD []).length == (K.headD []).length
  && (K.headD []).length == (V.headD []).length

/-! ### Bounds-instrumented variants (for the out-of-range-access claim)

Every vector component read goes through List.get?; an out-of-range read
(which in JS yields undefined and poisons the arithmetic with NaN) makes the
whole result none.
-/

/-- dotProduct with checked reads: indices 0 to min(a.length, b.length) - 1
of both operands. -/
def dotProductChecked (a b : List ℚ) : Option ℚ :=
  (List.range (min a.length b.length)).foldl
    (fun acc i => do
      let s ← acc
      let x ← a.get? i
      let y ← b.get? i
      pure (s + x * y))
    (some 0)

/-- naiveRow with checked reads of values[j][d]. -/
def naiveRowChecked (E : ℚ → ℚ) (K V : List (List ℚ)) (dims : ℕ)
    (scale : ℚ) (q : List ℚ) : Option (List ℚ) := do
  let scores ← K.mapM (fun k => (dotProductChecked q k).map (· * scale))
  let weights :=
    match listMaxO scores with
    | none => ([] : List ℚ)
    | some m =>
      let exps := scores.map (fun sc => E (sc - m))
      let sum := exps.sum
      if sum > 0 then exps.map (fun e₁ => e₁ / sum) else exps
  (List.range dims).mapM (fun d =>
    (weights.zip V).foldlM (fun acc p => (p.2.get? d).map (fun x => acc + p.1 * x)) 0)

/-- naiveAttention with checked vector reads. -/
def naiveAttentionChecked (E : ℚ → ℚ) (Q K V : List (List ℚ))
    (scale : ℚ) : Option (List (List ℚ)) :=
  let dims := (Q.headD []).length
  Q.mapM (naiveRowChecked E K V dims scale)

/-! ## Helper lemmas about the router embedding -/

theorem indexOfO_eq_none_of_not_mem (l : List String) (a : String)
    (h : a ∉ l) : indexOfO l a = none := by
  induction l with
  | nil => rfl
  | cons x xs ih =>
    have hxa : ¬ x = a := fun he => h (he ▸ List.mem_cons_self x xs)
    simp only [indexOfO, if_neg hxa,
      ih (fun hm => h (List.mem_cons_of_mem x hm)), Option.map_none']

theorem indexOfO_isSome_of_mem (l : List String) (a : String)
    (h : a ∈ l) : ∃ i, indexOfO l a = some i := by
  induction l with
  | nil => cases h
  | cons x xs ih =>
    by_cases hx : x = a
    · exact ⟨0, by simp [indexOfO, hx]⟩
    · rcases ih (by
        rcases List.mem_cons.mp h with h1 | h1
        · exact absurd h1.symm hx
        · exact h1) with ⟨i, hi⟩
      exact ⟨i + 1, by simp [indexOfO, hx, hi]⟩

theorem alistGet_eq_none_of_not_mem {α : Type} (l : List (String × α))
    (k : String) (h : k ∉ l.map Prod.fst) : alistGet l k = none := by
  induction l with
  | nil => rfl
  | cons p rest ih =>
    have hp : ¬ p.1 = k := by
      intro he
      exact h (by simp [he])
    simp only [alistGet, if_neg hp]
    exact ih (fun hm => h (by simp [List.map_cons, List.mem_cons]; right; simpa using hm))

theorem alistGet_map {α β : Type} (f : α → β) (l : List (String × α))
    (k : String) :
    alistGet (l.map (fun p => (p.1, f p.2))) k = (alistGet l k).map f := by
  induction l with
  | nil => rfl
  | cons p rest ih =>
    by_cases hp : p.1 = k
    · simp [alistGet, hp]
    · simp [alistGet, hp, ih]

/-- route() assigns no instance field: the state component of the result is
the input state. -/
theorem route_state_eq (cfg : QLearningRouterConfig) (E : ℚ → ℚ)
    (s : RouterState) (text : String) (explore : Bool) (rng : List ℚ) :
    (route cfg E s text explore rng).2.1 = s := by
  cases explore with
  | false => rfl
  | true =>
    simp only [route]
    split
    all_goals first | rfl | (split <;> rfl)

/-- The qValues field of the returned decision is the getQValues lookup. -/
theorem route_qValues_eq (cfg : QLearningRouterConfig) (E : ℚ → ℚ)
    (s : RouterState) (text : String) (explore : Bool) (rng : List ℚ) :
    (route cfg E s text explore rng).1.qValues
      = getQValues s.qTable (hashState text) cfg.numActions := by
  cases explore with
  | false => rfl
  | true =>
    simp only [route]
    split
    all_goals first | rfl | (split <;> rfl)

/-! ## C7 -/

/-- C7: for every task text, reward and action string that is not one of the
configured route labels, update() returns 0 and performs no mutation at all:
the returned state is exactly the input state (Q-table, epsilon, step count,
update count, average TD-error, replay buffer and caches included). -/
theorem update_unknown_action_noop (cfg : QLearningRouterConfig)
    (s : RouterState) (text action : String) (reward : ℚ)
    (next : Option String) (now : ℕ) (h : action ∉ ROUTE_NAMES) :
    update cfg s text action reward next now = (0, s) := by
  simp only [update, indexOfO_eq_none_of_not_mem ROUTE_NAMES action h]

/-- Witness for C7 at a concrete unknown action. -/
theorem update_unknown_action_noop_witness :
    "deployer" ∉ ROUTE_NAMES
    ∧ update DEFAULT_CONFIG (initState DEFAULT_CONFIG) "ship it" "deployer"
        1 none 42 = (0, initState DEFAULT_CONFIG) :=
  ⟨by decide, update_unknown_action_noop DEFAULT_CONFIG
    (initState DEFAULT_CONFIG) "ship it" "deployer" 1 none 42 (by decide)⟩

/-! ## C3 -/

/-- A router state with one trained entry and non-default statistics, used to
exhibit the behaviour of import() on malformed data. -/
def sImport : RouterState :=
  { initState DEFAULT_CONFIG with
    qTable := [("state_97", (⟨List.replicate 8 (1/2), 3, 11⟩ : QEntry))]
    epsilon := 1/2
    stepCount := 5
    updateCount := 5
    avgTDError := 1/4 }

/-- C3 counterexample: importing a structurally malformed model (an entry
whose value array has length 3 instead of numActions = 8) does not fail and
does not leave the Q-table unchanged — the old table is discarded and the
malformed entry installed, while the statistics fields keep their old values
(so neither disjunct of the claimed behaviour holds). -/
theorem import_malformed_accepted :
    ([(1 : ℚ), 2, 3].length ≠ DEFAULT_CONFIG.numActions)
    ∧ (importModel sImport [("state_5", (⟨[1, 2, 3], 2⟩ : ExportEntry))]
        99).qTable.map Prod.fst = ["state_5"]
    ∧ sImport.qTable.map Prod.fst = ["state_97"]
    ∧ (importModel sImport [("state_5", (⟨[1, 2, 3], 2⟩ : ExportEntry))]
        99).qTable ≠ sImport.qTable
    ∧ (importModel sImport [("state_5", (⟨[1, 2, 3], 2⟩ : ExportEntry))]
        99).epsilon = sImport.epsilon := by
  refine ⟨by decide, rfl, rfl, ?_, rfl⟩
  intro hcontra
  have hkeys := congrArg (List.map Prod.fst) hcontra
  rw [show (importModel sImport [("state_5", (⟨[1, 2, 3], 2⟩ : ExportEntry))]
    99).qTable.map Prod.fst = ["state_5"] from rfl] at hkeys
  rw [show sImport.qTable.map Prod.fst = ["state_97"] from rfl] at hkeys
  exact absurd hkeys (by decide)

/-- C3 (amended): import(data) performs no validation and cannot fail: it
unconditionally replaces the Q-table with exactly the entries of data (keys,
value arrays of any length, visit counts; each lastUpdate set to the import
time) and leaves every statistics field — epsilon, stepCount, updateCount,
avgTDError — and the replay/cache state unchanged. -/
theorem import_unconditional (s : RouterState)
    (data : List (String × ExportEntry)) (now : ℕ) :
    (importModel s data now).qTable.map Prod.fst = data.map Prod.fst
    ∧ (∀ k, alistGet (importModel s data now).qTable k
        = (alistGet data k).map (fun e =>
            { qValues := e.qValues, visits := e.visits, lastUpdate := now }))
    ∧ (importModel s data now).epsilon = s.epsilon
    ∧ (importModel s data now).stepCount = s.stepCount
    ∧ (importModel s data now).updateCount = s.updateCount
    ∧ (importModel s data now).avgTDError = s.avgTDError
    ∧ (importModel s data now).replayBuffer = s.replayBuffer
    ∧ (importModel s data now).routeCache = s.routeCache := by
  refine ⟨?_, ?_, rfl, rfl, rfl, rfl, rfl, rfl⟩
  · simp [importModel]
  · intro k
    exact alistGet_map
      (fun e : ExportEntry =>
        ({ qValues := e.qValues, visits := e.visits, lastUpdate := now } : QEntry))
      data k

/-! ## C9 -/

/-- C9: route() is a pure query: the router state after the call is the input
state (in particular a lookup of a state key with no Q-entry reads all-zero
action values without creating an entry), and any sequence of route() calls
leaves the Q-table exactly as it was. -/
theorem route_pure_query (cfg : QLearningRouterConfig) (E : ℚ → ℚ)
    (s : RouterState) (text : String) (explore : Bool) (rng : List ℚ) :
    (route cfg E s text explore rng).2.1 = s
    ∧ (hashState text ∉ s.qTable.map Prod.fst →
        (route cfg E s text explore rng).1.qValues
          = List.replicate cfg.numActions 0)
    ∧ ∀ calls : List (String × Bool × List ℚ),
        (calls.foldl (fun st c => (route cfg E st c.1 c.2.1 c.2.2).2.1) s).qTable
          = s.qTable := by
  refine ⟨route_state_eq cfg E s text explore rng, ?_, ?_⟩
  · intro habs
    rw [route_qValues_eq]
    simp [getQValues, alistGet_eq_none_of_not_mem s.qTable (hashState text) habs]
  · intro calls
    have hfold : ∀ (cs : List (String × Bool × List ℚ)) (st : RouterState),
        cs.foldl (fun st c => (route cfg E st c.1 c.2.1 c.2.2).2.1) st = st := by
      intro cs
      induction cs with
      | nil => intro st; rfl
      | cons c rest ih =>
        intro st
        rw [List.foldl_cons, route_state_eq, ih]
    rw [hfold]

/-- Witness for C9: a concrete route() call on a fresh router leaves the
state untouched and reads all-zero values for the unseen key. -/
theorem route_pure_query_witness :
    (route DEFAULT_CONFIG (fun q => q) (initState DEFAULT_CONFIG)
        "fix login bug" false []).2.1 = initState DEFAULT_CONFIG
    ∧ (route DEFAULT_CONFIG (fun q => q) (initState DEFAULT_CONFIG)
        "fix login bug" false []).1.qValues = List.replicate 8 0 := by
  have h := route_pure_query DEFAULT_CONFIG (fun q => q)
    (initState DEFAULT_CONFIG) "fix login bug" false []
  exact ⟨h.1, h.2.1 (by simp [initState])⟩

/-! ## C8 -/

/-- Imported-from-export tables give the same q-value lookups as the
original. -/
theorem getQValues_roundtrip (cfg : QLearningRouterConfig) (s : RouterState)
    (now : ℕ) (key : String) (n : ℕ) :
    getQValues (importModel (initState cfg) (exportData s) now).qTable key n
      = getQValues s.qTable key n := by
  have htable : (importModel (initState cfg) (exportData s) now).qTable
      = s.qTable.map (fun p => (p.1,
          ({ qValues := p.2.qValues, visits := p.2.visits,
             lastUpdate := now } : QEntry))) := by
    simp [importModel, exportData, List.map_map]
  simp only [getQValues, htable,
    alistGet_map (fun e : QEntry =>
      ({ qValues := e.qValues, visits := e.visits, lastUpdate := now } : QEntry))
      s.qTable key]
  cases alistGet s.qTable key with
  | none => rfl
  | some e => rfl

/-- C8: export() followed by import() into a fresh router (same
configuration) reproduces identical non-exploring route() decisions for every
task text — in particular for every previously seen state key. -/
theorem export_import_roundtrip (cfg : QLearningRouterConfig) (E : ℚ → ℚ)
    (s : RouterState) (text : String) (rng : List ℚ) (now : ℕ) :
    (route cfg E (importModel (initState cfg) (exportData s) now) text
        false rng).1
      = (route cfg E s text false rng).1 := by
  simp only [route, Bool.false_eq_true, if_false,
    getQValues_roundtrip cfg s now (hashState text) cfg.numActions]

/-! ## C2 -/

/-- Invariant of the argmax scan: either no element beats the running
maximum (the running index survives), or the result is the position of the
first element that strictly exceeds everything before it and is not exceeded
afterwards. -/
theorem argmaxAux_spec : ∀ (l : List ℚ) (i mIdx : ℕ) (mVal : ℚ),
    (argmaxAux l i mIdx mVal = mIdx ∧ ∀ x ∈ l, x ≤ mVal) ∨
    (∃ j, j < l.length ∧ argmaxAux l i mIdx mVal = i + j ∧ mVal < l.getD j 0 ∧
      (∀ k, k < j → l.getD k 0 < l.getD j 0) ∧ (∀ x ∈ l, x ≤ l.getD j 0)) := by
  intro l
  induction l with
  | nil =>
    intro i mIdx mVal
    left
    exact ⟨rfl, fun x hx => absurd hx (List.not_mem_nil x)⟩
  | cons v rest ih =>
    intro i mIdx mVal
    by_cases hv : v > mVal
    · rw [show argmaxAux (v :: rest) i mIdx mVal = argmaxAux rest (i + 1) i v
        from by simp [argmaxAux, hv]]
      rcases ih (i + 1) i v with ⟨heq, hle⟩ | ⟨j, hj, heq, hlt, hbelow, hall⟩
      · right
        refine ⟨0, by simp, by simpa using heq, by simpa using hv, ?_, ?_⟩
        · intro k hk
          exact absurd hk (Nat.not_lt_zero k)
        · intro x hx
          rcases List.mem_cons.mp hx with h1 | h1
          · subst h1; simp
          · simpa using hle x h1
      · right
        refine ⟨j + 1, by simpa using hj, by rw [heq]; omega, ?_, ?_, ?_⟩
        · simpa [List.getD_cons_succ] using lt_trans hv hlt
        · intro k hk
          cases k with
          | zero => simpa [List.getD_cons_zero, List.getD_cons_succ] using hlt
          | succ k₀ =>
            simpa [List.getD_cons_succ] using hbelow k₀ (by omega)
        · intro x hx
          rcases List.mem_cons.mp hx with h1 | h1
          · subst h1
            simpa [List.getD_cons_succ] using hlt.le
          · simpa [List.getD_cons_succ] using hall x h1
    · rw [show argmaxAux (v :: rest) i mIdx mVal = argmaxAux rest (i + 1) mIdx mVal
        from by simp [argmaxAux, hv]]
      rcases ih (i + 1) mIdx mVal with ⟨heq, hle⟩ | ⟨j, hj, heq, hlt, hbelow, hall⟩
      · left
        refine ⟨heq, ?_⟩
        intro x hx
        rcases List.mem_cons.mp hx with h1 | h1
        · subst h1; exact not_lt.mp hv
        · exact hle x h1
      · right
        refine ⟨j + 1, by simpa using hj, by rw [heq]; omega, ?_, ?_, ?_⟩
        · simpa [List.getD_cons_succ] using hlt
        · intro k hk
          cases k with
          | zero =>
            simp only [List.getD_cons_zero, List.getD_cons_succ]
            exact lt_of_le_of_lt (not_lt.mp hv) hlt
          | succ k₀ =>
            simpa [List.getD_cons_succ] using hbelow k₀ (by omega)
        · intro x hx
          rcases List.mem_cons.mp hx with h1 | h1
          · subst h1
            simpa [List.getD_cons_succ] using (le_of_lt (lt_of_le_of_lt (not_lt.mp hv) hlt))
          · simpa [List.getD_cons_succ] using hall x h1

theorem getD_mem_of_lt (l : List ℚ) (k : ℕ) (hk : k < l.length) :
    l.getD k 0 ∈ l := by
  rw [List.getD_eq_getElem l 0 hk]
  exact List.getElem_mem hk

/-- argmax returns an in-range index whose value is maximal, and every
earlier index holds a strictly smaller value (lowest-index tie-breaking). -/
theorem argmaxQ_spec (values : List ℚ) (h : values ≠ []) :
    argmaxQ values < values.length
    ∧ (∀ k, k < values.length →
        values.getD k 0 ≤ values.getD (argmaxQ values) 0)
    ∧ (∀ k, k < argmaxQ values →
        values.getD k 0 < values.getD (argmaxQ values) 0) := by
  cases values with
  | nil => exact absurd rfl h
  | cons v rest =>
    have hdef : argmaxQ (v :: rest) = argmaxAux rest 1 0 v := rfl
    rcases argmaxAux_spec rest 1 0 v with ⟨heq, hle⟩ | ⟨j, hj, heq, hlt, hbelow, hall⟩
    · rw [hdef, heq]
      refine ⟨by simp, ?_, ?_⟩
      · intro k hk
        cases k with
        | zero => simp
        | succ k₀ =>
          simp only [List.getD_cons_succ, List.getD_cons_zero]
          have hk₀ : k₀ < rest.length := by simpa using hk
          exact hle _ (getD_mem_of_lt rest k₀ hk₀)
      · intro k hk
        exact absurd hk (Nat.not_lt_zero k)
    · rw [hdef, heq]
      have hres : 1 + j = j + 1 := by omega
      rw [hres]
      refine ⟨by simpa using hj, ?_, ?_⟩
      · intro k hk
        cases k with
        | zero =>
          simp only [List.getD_cons_zero, List.getD_cons_succ]
          exact hlt.le
        | succ k₀ =>
          simp only [List.getD_cons_succ]
          have hk₀ : k₀ < rest.length := by simpa using hk
          exact hall _ (getD_mem_of_lt rest k₀ hk₀)
      · intro k hk
        cases k with
        | zero =>
          simp only [List.getD_cons_zero, List.getD_cons_succ]
          exact hlt
        | succ k₀ =>
          simp only [List.getD_cons_succ]
          exact hbelow k₀ (by omega)

/-- C2: with explore = false, route() consumes no randomness, returns the
same decision on every call against the same state, and the selected route is
the action of maximum Q-value for the state key, ties broken by the lowest
action index. -/
theorem route_deterministic_greedy (cfg : QLearningRouterConfig) (E : ℚ → ℚ)
    (s : RouterState) (text : String) (rng rng' : List ℚ)
    (h : getQValues s.qTable (hashState text) cfg.numActions ≠ []) :
    (route cfg E s text false rng).2.2 = rng
    ∧ (route cfg E s text false rng).1 = (route cfg E s text false rng').1
    ∧ (route cfg E s text false rng).1.route
        = routeNameOf (argmaxQ (getQValues s.qTable (hashState text) cfg.numActions))
    ∧ argmaxQ (getQValues s.qTable (hashState text) cfg.numActions)
        < (getQValues s.qTable (hashState text) cfg.numActions).length
    ∧ (∀ k, k < (getQValues s.qTable (hashState text) cfg.numActions).length →
        (getQValues s.qTable (hashState text) cfg.numActions).getD k 0
          ≤ (getQValues s.qTable (hashState text) cfg.numActions).getD
              (argmaxQ (getQValues s.qTable (hashState text) cfg.numActions)) 0)
    ∧ (∀ k, k < argmaxQ (getQValues s.qTable (hashState text) cfg.numActions) →
        (getQValues s.qTable (hashState text) cfg.numActions).getD k 0
          < (getQValues s.qTable (hashState text) cfg.numActions).getD
              (argmaxQ (getQValues s.qTable (hashState text) cfg.numActions)) 0) := by
  rcases argmaxQ_spec (getQValues s.qTable (hashState text) cfg.numActions) h
    with ⟨h1, h2, h3⟩
  exact ⟨rfl, rfl, rfl, h1, h2, h3⟩

/-- Witness for C2 on a fresh router: eight zero values, argmax index 0,
route "coder", with two different random streams. -/
theorem route_deterministic_greedy_witness :
    getQValues (initState DEFAULT_CONFIG).qTable (hashState "write tests") 8 ≠ []
    ∧ (route DEFAULT_CONFIG (fun q => q) (initState DEFAULT_CONFIG)
        "write tests" false [1/2]).2.2 = [1/2]
    ∧ (route DEFAULT_CONFIG (fun q => q) (initState DEFAULT_CONFIG)
        "write tests" false [1/2]).1
      = (route DEFAULT_CONFIG (fun q => q) (initState DEFAULT_CONFIG)
        "write tests" false [2/3]).1
    ∧ (route DEFAULT_CONFIG (fun q => q) (initState DEFAULT_CONFIG)
        "write tests" false [1/2]).1.route
      = routeNameOf (argmaxQ (getQValues (initState DEFAULT_CONFIG).qTable
          (hashState "write tests") 8)) := by
  have h := route_deterministic_greedy DEFAULT_CONFIG (fun q => q)
    (initState DEFAULT_CONFIG) "write tests" [1/2] [2/3]
    (by simp [getQValues, initState, alistGet, DEFAULT_CONFIG])
  exact ⟨by simp [getQValues, initState, alistGet, DEFAULT_CONFIG], h.1, h.2.1, h.2.2.1⟩

/-! ## C4 -/

/-- Every successful update() sets epsilon by the linear law
max(explorationFinal, explorationInitial - stepCount/explorationDecay),
whatever the configured explorationDecayType says. -/
theorem update_epsilon_eq (cfg : QLearningRouterConfig) (s : RouterState)
    (text action : String) (reward : ℚ) (next : Option String) (now : ℕ)
    (i : ℕ) (hidx : indexOfO ROUTE_NAMES action = some i) :
    ((update cfg s text action reward next now).2).epsilon
      = max cfg.explorationFinal
          (cfg.explorationInitial - ((s.stepCount + 1 : ℕ) : ℚ) / cfg.explorationDecay) := by
  simp only [update, hidx]

/-- A default-configured router that has performed 9999 updates. -/
def s9999 : RouterState := { initState DEFAULT_CONFIG with stepCount := 9999 }

/-- The exploration decay the specification prescribes for the default
(exponential) decay type: final + (initial - final) * exp(-step/decaySteps).
Modelled from the specification text; the source has no exponential decay
computation to embed. -/
noncomputable def specEpsilonExponential (cfg : QLearningRouterConfig)
    (step : ℕ) : ℝ :=
  (cfg.explorationFinal : ℝ)
    + ((cfg.explorationInitial : ℝ) - (cfg.explorationFinal : ℝ))
      * Real.exp (-((step : ℝ) / (cfg.explorationDecay : ℝ)))

/-- C4: under the default configuration (explorationDecayType =
'exponential'), the 10000th update sets epsilon to
max(0.01, 1 - 10000/10000) = 0.01 — the linear law — while the claimed
exponential law gives 0.01 + 0.99 * exp(-1), a different value: the
configured decay type is ignored by the code. -/
theorem epsilon_decay_linear_despite_config :
    DEFAULT_CONFIG.explorationDecayType = DecayType.exponential
    ∧ ((update DEFAULT_CONFIG s9999 "task" "coder" 1 none 3).2).epsilon = 1/100
    ∧ ((1 : ℝ)/100) ≠ specEpsilonExponential DEFAULT_CONFIG 10000 := by
  refine ⟨rfl, ?_, ?_⟩
  · rw [update_epsilon_eq DEFAULT_CONFIG s9999 "task" "coder" 1 none 3 0 (by decide)]
    have h0 : (DEFAULT_CONFIG.explorationInitial
        - ((s9999.stepCount + 1 : ℕ) : ℚ) / DEFAULT_CONFIG.explorationDecay) = 0 := by
      simp only [DEFAULT_CONFIG, s9999, initState]
      norm_num
    rw [h0]
    simp only [DEFAULT_CONFIG]
    rw [max_eq_left (by norm_num)]
  · intro hc
    have hexp : 0 < Real.exp (-(((10000 : ℕ) : ℝ) / ((10000 : ℚ) : ℝ))) :=
      Real.exp_pos _
    simp only [specEpsilonExponential, DEFAULT_CONFIG] at hc
    push_cast at hc hexp
    nlinarith [hexp]

/-! ## C6 -/

/-- A cached decision recommending "tester". -/
def decisionC6 : RouteDecision :=
  { route := "tester", confidence := 1, qValues := [], explored := false,
    alternatives := [] }

/-- A router whose decision cache holds a fresh (hits = 0, just stored)
entry for the state key of "fix bug", while the Q-table is empty (so the
greedy policy decision is "coder"). -/
def sC6 : RouterState :=
  { initState DEFAULT_CONFIG with
    routeCache := [(hashState "fix bug",
      { decision := decisionC6, timestamp := 0, hits := 0 })] }

/-- C6 (code bug): route() never consults the decision cache.  With a live
cache entry for the key whose cached decision is "tester", route(..., false)
recomputes from the Q-table and returns "coder", and the state — including
the cache entry's hit counter — is completely untouched, contradicting both
the claim and the source's own "LRU cache for repeated task patterns"
feature documentation. -/
theorem route_ignores_cache :
    (route DEFAULT_CONFIG (fun q => q) sC6 "fix bug" false []).1.route = "coder"
    ∧ (route DEFAULT_CONFIG (fun q => q) sC6 "fix bug" false []).1.route
        ≠ decisionC6.route
    ∧ (route DEFAULT_CONFIG (fun q => q) sC6 "fix bug" false []).2.1 = sC6
    ∧ ((route DEFAULT_CONFIG (fun q => q) sC6 "fix bug" false []).2.1).routeCache
        = [(hashState "fix bug",
            { decision := decisionC6, timestamp := 0, hits := 0 })] := by
  refine ⟨by decide, by decide, route_state_eq _ _ _ _ _ _, ?_⟩
  rw [route_state_eq]
  rfl

/-! ## C10 -/

theorem get?_eq_some_getD (l : List ℚ) (i : ℕ) (h : i < l.length) :
    l.get? i = some (l.getD i 0) := by
  rw [List.getD_eq_getElem l 0 h]
  rw [List.get?_eq_getElem?]
  exact List.getElem?_eq_getElem h

/-- The checked fold of dotProductChecked succeeds on any index list whose
members are below both lengths. -/
theorem foldl_dotChecked (a b : List ℚ) :
    ∀ (l : List ℕ), (∀ i ∈ l, i < a.length ∧ i < b.length) → ∀ s : ℚ,
    l.foldl (fun acc i => do
        let s₁ ← acc
        let x ← a.get? i
        let y ← b.get? i
        pure (s₁ + x * y)) (some s)
      = some (l.foldl (fun acc i => acc + a.getD i 0 * b.getD i 0) s) := by
  intro l
  induction l with
  | nil => intro _ s; rfl
  | cons i l' ih =>
    intro hmem s
    have hi := hmem i (List.mem_cons_self i l')
    simp only [List.foldl_cons, get?_eq_some_getD a i hi.1,
      get?_eq_some_getD b i hi.2, Option.bind_some, Option.some_bind]
    exact ih (fun j hj => hmem j (List.mem_cons_of_mem i hj)) (s + a.getD i 0 * b.getD i 0)

theorem foldl_add_eq_sum (f : ℕ → ℚ) (l : List ℕ) : ∀ s : ℚ,
    l.foldl (fun acc i => acc + f i) s = s + (l.map f).sum := by
  induction l with
  | nil => intro s; simp
  | cons i l' ih =>
    intro s
    simp only [List.foldl_cons, List.map_cons, List.sum_cons, ih, add_assoc]

/-- dotProduct as a sum over the indices 0 .. min(len, len) - 1. -/
theorem dotProduct_eq_indexed (a : List ℚ) : ∀ b : List ℚ,
    dotProduct a b = ((List.range (min a.length b.length)).map
      (fun i => a.getD i 0 * b.getD i 0)).sum := by
  induction a with
  | nil => intro b; simp [dotProduct]
  | cons x a' ih =>
    intro b
    cases b with
    | nil => simp [dotProduct]
    | cons y b' =>
      simp only [dotProduct, List.zip_cons_cons, List.map_cons, List.sum_cons]
      rw [show min (x :: a').length (y :: b').length = min a'.length b'.length + 1
        from by simp [List.length_cons, Nat.succ_min_succ]]
      rw [List.range_succ_eq_map]
      simp only [List.map_cons, List.sum_cons, List.map_map,
        List.getD_cons_zero]
      have hfun : ((fun i => (x :: a').getD i 0 * (y :: b').getD i 0) ∘ Nat.succ)
          = (fun i => a'.getD i 0 * b'.getD i 0) := by
        funext i
        simp [Function.comp, List.getD_cons_succ]
      rw [hfun]
      have hrec := ih b'
      rw [dotProduct] at hrec
      rw [hrec]

/-- Every dot product of the engine reads exactly the components
0 .. min(len(a), len(b)) - 1 of its operands: the bounds-checked evaluation
never fails and returns the dotProduct value. -/
theorem dotProductChecked_eq_some (a b : List ℚ) :
    dotProductChecked a b = some (dotProduct a b) := by
  rw [dotProductChecked, foldl_dotChecked a b (List.range (min a.length b.length))
    (by
      intro i hi
      have := List.mem_range.mp hi
      omega) 0]
  rw [foldl_add_eq_sum, zero_add, dotProduct_eq_indexed]

/-- C10 counterexample: the input Q = [[1,1]], K = [[1,1],[1,1]],
V = [[1,1],[5]] passes validateInputs (it checks only the first vector of
each set), and the computation — which dispatches to the direct path since
1*2 is below the 1024 threshold — reads values[1][1], an out-of-range
component of the length-1 vector [5]: the bounds-checked run fails. -/
theorem ragged_values_read_out_of_range :
    validateInputs [[1, 1]] [[1, 1], [1, 1]] [[1, 1], [5]] = true
    ∧ naiveAttentionChecked (fun _ => (1 : ℚ)) [[1, 1]] [[1, 1], [1, 1]]
        [[1, 1], [5]] 1 = none := by
  constructor
  · decide
  · norm_num [naiveAttentionChecked, naiveRowChecked, dotProductChecked, listMaxO,
      maxStep, List.mapM, List.mapM.loop, List.foldlM, List.range_succ, Option.bind]

/-- C10 (amended): validateInputs inspects only the first vector of each of
queries, keys and values, so an input whose later vectors have different
lengths is accepted; every dot product reads only the first
min(len(a), len(b)) components of its operands and so never reads out of
range — but the value-accumulation loop reads values[j][d] for every
d < len(queries[0]), so a values vector shorter than the first query vector
IS read out of range (the bounds-checked run of the accepted ragged input
fails). -/
theorem validation_shallow_dot_bounded_values_unbounded :
    validateInputs [[1, 1]] [[1, 1], [1, 1]] [[1, 1], [5]] = true
    ∧ (∀ a b : List ℚ, dotProductChecked a b = some (dotProduct a b))
    ∧ naiveAttentionChecked (fun _ => (2 : ℚ)) [[1, 1]] [[1, 1], [1, 1]]
        [[1, 1], [5]] 1 = none := by
  refine ⟨by decide, dotProductChecked_eq_some, ?_⟩
  norm_num [naiveAttentionChecked, naiveRowChecked, dotProductChecked, listMaxO,
    maxStep, List.mapM, List.mapM.loop, List.foldlM, List.range_succ, Option.bind]

/-! ## C1 -/

theorem chunksF_join {α : Type} : ∀ (fuel B : ℕ) (l : List α),
    l.length ≤ fuel → 0 < B → (chunksF fuel B l).flatten = l := by
  intro fuel
  induction fuel with
  | zero =>
    intro B l hl hB
    have : l = [] := List.eq_nil_of_length_eq_zero (Nat.le_zero.mp hl)
    subst this
    rfl
  | succ n ih =>
    intro B l hl hB
    cases l with
    | nil => rfl
    | cons x xs =>
      show (List.take B (x :: xs) :: chunksF n B (List.drop B (x :: xs))).flatten
        = x :: xs
      rw [List.flatten_cons, ih B _ (by
        rw [List.length_drop]
        simp only [List.length_cons] at hl ⊢
        omega) hB]
      exact List.take_append_drop B (x :: xs)

theorem chunksF_ne_nil {α : Type} : ∀ (fuel B : ℕ) (l : List α) (c : List α),
    0 < B → c ∈ chunksF fuel B l → c ≠ [] := by
  intro fuel
  induction fuel with
  | zero => intro B l c hB hc; cases hc
  | succ n ih =>
    intro B l c hB hc
    cases l with
    | nil => cases hc
    | cons x xs =>
      have hc₂ : c ∈ List.take B (x :: xs) :: chunksF n B (List.drop B (x :: xs)) := hc
      rcases List.mem_cons.mp hc₂ with h | h
      · subst h
        cases B with
        | zero => exact absurd hB (by omega)
        | succ b => simp [List.take_cons]
      · exact ih B _ c hB h

/-- The per-query invariant of the online-softmax fold: after processing the
keys L (with their values), the running maximum is the maximum of the raw
scores over L, the running sum is the sum of E(score - max), and each
accumulator component is the corresponding weighted value sum. -/
def osInv (E : ℚ → ℚ) (q : List ℚ) (scale : ℚ) (L : List (List ℚ × List ℚ))
    (st : OSState) : Prop :=
  (L = [] ∧ st.m = none ∧ st.sum = 0 ∧ ∀ d, st.acc d = 0) ∨
  (∃ mv, listMaxO (L.map (scoreKV q scale)) = some mv ∧ st.m = some mv
    ∧ st.sum = (L.map (fun kv => E (scoreKV q scale kv - mv))).sum
    ∧ ∀ d, st.acc d
        = (L.map (fun kv => E (scoreKV q scale kv - mv) * kv.2.getD d 0)).sum)

theorem osInv_step (E : ℚ → ℚ) (hEhom : ∀ a b, E (a + b) = E a * E b)
    (q : List ℚ) (scale : ℚ) (L c : List (List ℚ × List ℚ)) (st : OSState)
    (hc : c ≠ []) (hInv : osInv E q scale L st) :
    osInv E q scale (L ++ c) (processBlock E q scale st c) := by
  have hmapc : c.map (scoreKV q scale) ≠ [] := by
    intro habs
    exact hc (List.map_eq_nil_iff.mp habs)
  rcases hmb : listMaxO (c.map (scoreKV q scale)) with _ | mb
  · exact absurd ((listMaxO_eq_none_iff _).mp hmb) hmapc
  rcases hInv with ⟨hL, hm, hsum, hacc⟩ | ⟨mL, hmax, hm, hsum, hacc⟩
  · subst hL
    right
    refine ⟨mb, by simpa using hmb, ?_, ?_, ?_⟩
    · simp only [processBlock, hm, hmb, combineO]
    · simp only [processBlock, hm, hmb, combineO]
      simp [hsum]
    · intro d
      simp only [processBlock, hm, hmb, combineO]
      simp [hacc d]
  · have hpoint : ∀ sc : ℚ, E (sc - mL) * E (mL - max mL mb) = E (sc - max mL mb) := by
      intro sc
      rw [← hEhom]
      congr 1
      ring
    right
    refine ⟨max mL mb, ?_, ?_, ?_, ?_⟩
    · rw [List.map_append, listMaxO_append, hmax, hmb]
      rfl
    · simp only [processBlock, hm, hmb, combineO]
    · simp only [processBlock, hm, hmb, combineO, List.map_append,
        List.sum_append]
      rw [hsum, list_sum_map_mul_right]
      congr 1
      exact congrArg List.sum (List.map_congr_left (fun kv _ => hpoint _))
    · intro d
      simp only [processBlock, hm, hmb, combineO, List.map_append,
        List.sum_append]
      rw [hacc d, list_sum_map_mul_right]
      congr 1
      refine congrArg List.sum (List.map_congr_left ?_)
      intro kv _
      calc E (scoreKV q scale kv - mL) * kv.2.getD d 0 * E (mL - max mL mb)
          = E (scoreKV q scale kv - mL) * E (mL - max mL mb) * kv.2.getD d 0 := by
            ring
        _ = E (scoreKV q scale kv - max mL mb) * kv.2.getD d 0 := by
            rw [hpoint]

theorem osInv_fold (E : ℚ → ℚ) (hEhom : ∀ a b, E (a + b) = E a * E b)
    (q : List ℚ) (scale : ℚ) :
    ∀ (cs : List (List (List ℚ × List ℚ))) (L : List (List ℚ × List ℚ))
      (st : OSState),
    (∀ c ∈ cs, c ≠ []) → osInv E q scale L st →
    osInv E q scale (L ++ cs.flatten) (cs.foldl (processBlock E q scale) st) := by
  intro cs
  induction cs with
  | nil =>
    intro L st _ hInv
    simpa using hInv
  | cons c cs' ih =>
    intro L st hne hInv
    have hstep := osInv_step E hEhom q scale L c st
      (hne c (List.mem_cons_self c cs')) hInv
    have hrest := ih (L ++ c) (processBlock E q scale st c)
      (fun c₁ hc₁ => hne c₁ (List.mem_cons_of_mem c hc₁)) hstep
    simpa [List.flatten_cons, List.append_assoc] using hrest

/-- The raw scores over the zipped key/value pairs are the raw scores over
the keys. -/
theorem map_scoreKV_eq (q : List ℚ) (scale : ℚ) (K V : List (List ℚ))
    (h : K.length ≤ V.length) :
    (K.zip V).map (scoreKV q scale) = K.map (fun k => dotProduct q k * scale) := by
  have h₁ : (K.zip V).map (scoreKV q scale)
      = ((K.zip V).map Prod.fst).map (fun k => dotProduct q k * scale) := by
    rw [List.map_map]
    rfl
  rw [h₁, List.map_fst_zip K V h]

/-- One query of the tiled path equals one query of the direct path. -/
theorem tiledRow_eq_naiveRow (E : ℚ → ℚ) (hEpos : ∀ x, 0 < E x)
    (hEhom : ∀ a b, E (a + b) = E a * E b) (K V : List (List ℚ))
    (dims : ℕ) (scale : ℚ) (B : ℕ) (hK : K ≠ []) (hKV : K.length = V.length)
    (hB : 0 < B) (q : List ℚ) :
    tiledRow E K V dims scale B q = naiveRow E K V dims scale q := by
  have hKlen : 0 < K.length := List.length_pos.mpr hK
  have hzip_len : (K.zip V).length = K.length := by
    rw [List.length_zip, hKV, min_self]
  have hzip_ne : K.zip V ≠ [] := by
    intro habs
    rw [habs] at hzip_len
    simp at hzip_len
    omega
  have hjoin : (chunks B (K.zip V)).flatten = K.zip V :=
    chunksF_join _ B _ (le_refl _) hB
  have hne : ∀ c ∈ chunks B (K.zip V), c ≠ [] :=
    fun c hc => chunksF_ne_nil _ B _ c hB hc
  have hbase : osInv E q scale [] initOS := by
    left
    exact ⟨rfl, rfl, rfl, fun d => rfl⟩
  have hfinal := osInv_fold E hEhom q scale (chunks B (K.zip V)) [] initOS hne hbase
  rw [hjoin, List.nil_append] at hfinal
  rcases hfinal with ⟨habs, _, _, _⟩ | ⟨mv, hmax, hm, hsum, hacc⟩
  · exact absurd habs hzip_ne
  have hscores : (K.zip V).map (scoreKV q scale)
      = K.map (fun k => dotProduct q k * scale) :=
    map_scoreKV_eq q scale K V (le_of_eq hKV)
  rw [hscores] at hmax
  -- the key facts about the final state
  have hexps_pos : ∀ x ∈ (K.map (fun k => dotProduct q k * scale)).map
      (fun sc => E (sc - mv)), 0 < x := by
    intro x hx
    rcases List.mem_map.mp hx with ⟨sc, _, hsc⟩
    rw [← hsc]
    exact hEpos _
  have hexps_ne : (K.map (fun k => dotProduct q k * scale)).map
      (fun sc => E (sc - mv)) ≠ [] := by
    simp [hK]
  have hS_pos : 0 < ((K.map (fun k => dotProduct q k * scale)).map
      (fun sc => E (sc - mv))).sum :=
    sum_pos_of_pos _ hexps_ne hexps_pos
  -- rewrite the tiled sum in terms of the keys
  have hsumK : ((K.zip V).map (fun kv => E (scoreKV q scale kv - mv))).sum
      = ((K.map (fun k => dotProduct q k * scale)).map (fun sc => E (sc - mv))).sum := by
    rw [List.map_map]
    rw [show ((fun sc => E (sc - mv)) ∘ fun k => dotProduct q k * scale)
      = fun k => E (dotProduct q k * scale - mv) from rfl]
    have h₂ : ((K.zip V).map (fun kv => E (scoreKV q scale kv - mv)))
        = ((K.zip V).map Prod.fst).map (fun k => E (dotProduct q k * scale - mv)) := by
      rw [List.map_map]
      rfl
    rw [h₂, List.map_fst_zip K V (le_of_eq hKV)]
  rw [tiledRow, naiveRow, hmax]
  apply List.map_congr_left
  intro d _
  simp only [hsum, hsumK, hacc d, if_pos hS_pos]
  -- weights of the naive path, zipped against V
  set S := ((K.map (fun k => dotProduct q k * scale)).map (fun sc => E (sc - mv))).sum with hS
  have hwz : ((((K.map (fun k => dotProduct q k * scale)).map
        (fun sc => E (sc - mv))).map (fun e₁ => e₁ / S)).zip V).map
        (fun p => p.1 * p.2.getD d 0)
      = (K.zip V).map (fun kv => E (scoreKV q scale kv - mv) / S * kv.2.getD d 0) := by
    rw [List.map_map, List.map_map, List.zip_map_left, List.map_map]
    apply List.map_congr_left
    intro kv _
    cases kv with
    | mk a b => rfl
  rw [hwz]
  -- pull the division out of the sum
  have hdiv : (K.zip V).map (fun kv => E (scoreKV q scale kv - mv) / S * kv.2.getD d 0)
      = (K.zip V).map (fun kv => E (scoreKV q scale kv - mv) * kv.2.getD d 0 * S⁻¹) := by
    apply List.map_congr_left
    intro kv _
    ring
  rw [hdiv, ← list_sum_map_mul_right, div_eq_mul_inv]

/-- C1: for every valid input (non-empty queries and keys, as many values as
keys, all vectors of the dimension of the first query) and every block size,
the block-tiled computation equals the direct quadratic computation exactly
(component by component, so in particular within any absolute tolerance such
as 1e-4, including when the block size does not divide the number of queries
or keys), and the threshold dispatch of attention() therefore never changes
the result.  The statement is parametric in the exponential: E is any
function that is positive and maps sums to products, as the real Math.exp
does. -/
theorem flash_block_eq_naive (E : ℚ → ℚ) (Q K V : List (List ℚ)) (B : ℕ)
    (scale : ℚ) (hQ : Q ≠ []) (hK : K ≠ []) (hKV : K.length = V.length)
    (hdQ : ∀ q ∈ Q, q.length = (Q.headD []).length)
    (hdK : ∀ k ∈ K, k.length = (Q.headD []).length)
    (hdV : ∀ v ∈ V, v.length = (Q.headD []).length)
    (hB : 0 < B) (hEpos : ∀ x, 0 < E x)
    (hEhom : ∀ a b, E (a + b) = E a * E b) :
    blockAttention E Q K V B scale = naiveAttention E Q K V scale
    ∧ attentionOutput E Q K V B scale = naiveAttention E Q K V scale := by
  have h₁ : blockAttention E Q K V B scale = naiveAttention E Q K V scale := by
    rw [blockAttention, naiveAttention]
    exact List.map_congr_left (fun q _ =>
      tiledRow_eq_naiveRow E hEpos hEhom K V (Q.headD []).length scale B hK hKV hB q)
  refine ⟨h₁, ?_⟩
  rw [attentionOutput]
  split
  · exact h₁
  · rfl

/-- Witness for C1: a concrete one-query, one-key instance with block size 1
and the constant-one stand-in for the exponential. -/
theorem flash_block_eq_naive_witness :
    ([[(1 : ℚ)]] ≠ ([] : List (List ℚ)))
    ∧ (∀ x : ℚ, 0 < (fun _ : ℚ => (1 : ℚ)) x)
    ∧ (∀ a b : ℚ, (fun _ : ℚ => (1 : ℚ)) (a + b)
        = (fun _ : ℚ => (1 : ℚ)) a * (fun _ : ℚ => (1 : ℚ)) b)
    ∧ blockAttention (fun _ => 1) [[1]] [[1]] [[2]] 1 1
        = naiveAttention (fun _ => 1) [[1]] [[1]] [[2]] 1 :=
  ⟨by decide, fun x => one_pos, fun a b => (one_mul 1).symm,
    (flash_block_eq_naive (fun _ => 1) [[1]] [[1]] [[2]] 1 1
      (by decide) (by decide) (by decide)
      (by intro q hq; rw [List.mem_singleton.mp hq]; rfl)
      (by intro k hk; rw [List.mem_singleton.mp hk]; rfl)
      (by intro v hv; rw [List.mem_singleton.mp hv]; rfl)
      (by decide) (fun x => one_pos) (fun a b => (one_mul 1).symm)).1⟩

/-! ## C5 -/

/-- Comparator order of pruneQTable's sort. -/
def luLE (a b : String × QEntry) : Prop :=
  a.2.lastUpdate ≤ b.2.lastUpdate

theorem insertByLU_perm (x : String × QEntry) (l : List (String × QEntry)) :
    List.Perm (insertByLU x l) (x :: l) := by
  induction l with
  | nil => exact List.Perm.refl _
  | cons y rest ih =>
    by_cases h : x.2.lastUpdate ≤ y.2.lastUpdate
    · rw [insertByLU, if_pos h]
    · rw [insertByLU, if_neg h]
      exact List.Perm.trans (List.Perm.cons y ih) (List.Perm.swap x y rest)

theorem sortByLU_perm (l : List (String × QEntry)) : List.Perm (sortByLU l) l := by
  induction l with
  | nil => exact List.Perm.refl _
  | cons x xs ih =>
    exact List.Perm.trans (insertByLU_perm x (sortByLU xs)) (List.Perm.cons x ih)

theorem insertByLU_pairwise (x : String × QEntry) (l : List (String × QEntry))
    (hl : List.Pairwise luLE l) : List.Pairwise luLE (insertByLU x l) := by
  induction l with
  | nil => exact List.pairwise_singleton luLE x
  | cons y rest ih =>
    by_cases h : x.2.lastUpdate ≤ y.2.lastUpdate
    · rw [insertByLU, if_pos h]
      refine List.Pairwise.cons ?_ hl
      intro z hz
      rcases List.mem_cons.mp hz with h₁ | h₁
      · subst h₁; exact h
      · exact le_trans h (List.rel_of_pairwise_cons hl h₁)
    · rw [insertByLU, if_neg h]
      refine List.Pairwise.cons ?_ (ih (List.Pairwise.of_cons hl))
      intro z hz
      have hz₂ : z ∈ x :: rest := (insertByLU_perm x rest).mem_iff.mp hz
      rcases List.mem_cons.mp hz₂ with h₁ | h₁
      · subst h₁
        exact le_of_lt (not_le.mp h)
      · exact List.rel_of_pairwise_cons hl h₁

theorem sortByLU_pairwise (l : List (String × QEntry)) :
    List.Pairwise luLE (sortByLU l) := by
  induction l with
  | nil => exact List.Pairwise.nil
  | cons x xs ih => exact insertByLU_pairwise x (sortByLU xs) ih

theorem alistSet_self_mem {α : Type} (l : List (String × α)) (k : String)
    (v : α) : (k, v) ∈ alistSet l k v := by
  induction l with
  | nil => exact List.mem_singleton.mpr rfl
  | cons q rest ih =>
    by_cases h : q.1 = k
    · rw [alistSet, if_pos h]
      exact List.mem_cons_self _ _
    · rw [alistSet, if_neg h]
      exact List.mem_cons_of_mem q ih

theorem keys_alistSet_subset {α : Type} (l : List (String × α)) (k : String)
    (v : α) (x : String) (hx : x ∈ (alistSet l k v).map Prod.fst) :
    x = k ∨ x ∈ l.map Prod.fst := by
  induction l with
  | nil =>
    left
    simpa [alistSet] using hx
  | cons q rest ih =>
    by_cases h : q.1 = k
    · rw [alistSet, if_pos h] at hx
      rcases List.mem_map.mp hx with ⟨p, hp, hfst⟩
      rcases List.mem_cons.mp hp with h₁ | h₁
      · left; rw [← hfst, h₁]
      · right
        rw [List.map_cons]
        exact List.mem_cons_of_mem _ (List.mem_map.mpr ⟨p, h₁, hfst⟩)
    · rw [alistSet, if_neg h] at hx
      rcases List.mem_map.mp hx with ⟨p, hp, hfst⟩
      rcases List.mem_cons.mp hp with h₁ | h₁
      · right
        rw [List.map_cons, ← hfst, h₁]
        exact List.mem_cons_self _ _
      · rcases ih (List.mem_map.mpr ⟨p, h₁, hfst⟩) with h₂ | h₂
        · left; exact h₂
        · right
          rw [List.map_cons]
          exact List.mem_cons_of_mem _ h₂

theorem mem_alistSet {α : Type} (l : List (String × α)) (k : String) (v : α)
    (p : String × α) (hnd : (l.map Prod.fst).Nodup)
    (hp : p ∈ alistSet l k v) : p = (k, v) ∨ (p ∈ l ∧ p.1 ≠ k) := by
  induction l with
  | nil =>
    left
    simpa [alistSet] using hp
  | cons q rest ih =>
    rw [List.map_cons, List.nodup_cons] at hnd
    by_cases h : q.1 = k
    · rw [alistSet, if_pos h] at hp
      rcases List.mem_cons.mp hp with h₁ | h₁
      · left; exact h₁
      · right
        refine ⟨List.mem_cons_of_mem q h₁, ?_⟩
        intro habs
        exact hnd.1 (h ▸ habs ▸ List.mem_map.mpr ⟨p, h₁, rfl⟩)
    · rw [alistSet, if_neg h] at hp
      rcases List.mem_cons.mp hp with h₁ | h₁
      · right
        exact ⟨h₁ ▸ List.mem_cons_self q rest, h₁ ▸ h⟩
      · rcases ih hnd.2 h₁ with h₂ | h₂
        · left; exact h₂
        · right
          exact ⟨List.mem_cons_of_mem q h₂.1, h₂.2⟩

theorem alistSet_length_of_mem {α : Type} (l : List (String × α)) (k : String)
    (v : α) (h : k ∈ l.map Prod.fst) : (alistSet l k v).length = l.length := by
  induction l with
  | nil => simp at h
  | cons q rest ih =>
    by_cases hq : q.1 = k
    · rw [alistSet, if_pos hq]
      simp
    · rw [alistSet, if_neg hq]
      rw [List.length_cons, List.length_cons, ih]
      rw [List.map_cons, List.mem_cons] at h
      rcases h with h₁ | h₁
      · exact absurd h₁.symm hq
      · exact h₁

theorem alistSet_keys_nodup {α : Type} (l : List (String × α)) (k : String)
    (v : α) (hnd : (l.map Prod.fst).Nodup) :
    ((alistSet l k v).map Prod.fst).Nodup := by
  induction l with
  | nil => simp [alistSet]
  | cons q rest ih =>
    rw [List.map_cons, List.nodup_cons] at hnd
    by_cases h : q.1 = k
    · rw [alistSet, if_pos h]
      rw [List.map_cons, List.nodup_cons]
      exact ⟨h ▸ hnd.1, hnd.2⟩
    · rw [alistSet, if_neg h]
      rw [List.map_cons, List.nodup_cons]
      refine ⟨?_, ih hnd.2⟩
      intro habs
      rcases keys_alistSet_subset rest k v q.1 habs with h₁ | h₁
      · exact h h₁
      · exact hnd.1 h₁

theorem eq_of_mem_keys_nodup {α : Type} :
    ∀ (l : List (String × α)), (l.map Prod.fst).Nodup →
    ∀ b p, b ∈ l → p ∈ l → b.1 = p.1 → b = p := by
  intro l
  induction l with
  | nil => intro _ b p hb; cases hb
  | cons x rest ih =>
    intro hnd b p hb hp hfst
    rw [List.map_cons, List.nodup_cons] at hnd
    rcases List.mem_cons.mp hb with hb₁ | hb₁ <;>
      rcases List.mem_cons.mp hp with hp₁ | hp₁
    · rw [hb₁, hp₁]
    · exact absurd (List.mem_map.mpr ⟨p, hp₁, (hfst ▸ (hb₁ ▸ rfl) : p.1 = x.1)⟩) hnd.1
    · exact absurd (List.mem_map.mpr ⟨b, hb₁, (hfst.symm ▸ (hp₁ ▸ rfl) : b.1 = x.1)⟩) hnd.1
    · exact ih hnd.2 b p hb₁ hp₁ hfst

theorem contains_eq_true_of_mem {l : List String} {x : String} (h : x ∈ l) :
    l.contains x = true :=
  List.elem_iff.mpr h

theorem contains_eq_false_of_not_mem {l : List String} {x : String}
    (h : x ∉ l) : l.contains x = false := by
  rcases hc : l.contains x with _ | _
  · rfl
  · exact absurd (List.elem_iff.mp hc) h

/-- Deleting a Nodup set of present keys from a key-Nodup association list
removes exactly one entry per key. -/
theorem length_filter_not_mem_keys {α : Type} :
    ∀ (l : List (String × α)) (r : List String),
    (l.map Prod.fst).Nodup → r.Nodup → (∀ k ∈ r, k ∈ l.map Prod.fst) →
    (l.filter (fun p => !(r.contains p.1))).length = l.length - r.length := by
  intro l
  induction l with
  | nil =>
    intro r _ _ hsub
    cases r with
    | nil => rfl
    | cons k r' => exact absurd (hsub k (List.mem_cons_self k r')) (by simp)
  | cons x l' ih =>
    intro r hnd hrnd hsub
    rw [List.map_cons, List.nodup_cons] at hnd
    have hrlen : r.length ≤ (x.1 :: l'.map Prod.fst).length :=
      List.Subperm.length_le (hrnd.subperm (fun k hk => by
        simpa using hsub k hk))
    by_cases hx : x.1 ∈ r
    · have hcont : (!(r.contains x.1)) = false := by
        rw [contains_eq_true_of_mem hx]
        rfl
      rw [List.filter_cons, hcont]
      simp only [Bool.false_eq_true, if_false]
      have hfc : l'.filter (fun p => !(r.contains p.1))
          = l'.filter (fun p => !((r.erase x.1).contains p.1)) := by
        apply List.filter_congr
        intro p hp
        have hne : p.1 ≠ x.1 := by
          intro habs
          exact hnd.1 (habs ▸ List.mem_map.mpr ⟨p, hp, rfl⟩)
        by_cases hm : p.1 ∈ r
        · rw [contains_eq_true_of_mem hm,
            contains_eq_true_of_mem ((List.mem_erase_of_ne hne).mpr hm)]
        · rw [contains_eq_false_of_not_mem hm,
            contains_eq_false_of_not_mem (fun habs =>
              hm ((List.mem_erase_of_ne hne).mp habs))]
      rw [hfc, ih (r.erase x.1) hnd.2 (hrnd.erase x.1) (fun k hk => by
        have hkr : k ∈ r := List.mem_of_mem_erase hk
        have hkne : k ≠ x.1 := by
          intro habs
          exact (List.Nodup.not_mem_erase hrnd) (habs ▸ hk)
        have := hsub k hkr
        rw [List.map_cons, List.mem_cons] at this
        rcases this with h₁ | h₁
        · exact absurd h₁ hkne
        · exact h₁)]
      rw [List.length_erase_of_mem hx]
      simp only [List.length_cons] at hrlen ⊢
      have hrpos : 1 ≤ r.length := List.length_pos.mpr (fun habs => by
        rw [habs] at hx; cases hx)
      omega
    · have hcont : (!(r.contains x.1)) = true := by
        rw [contains_eq_false_of_not_mem hx]
        rfl
      rw [List.filter_cons, hcont]
      simp only [if_true]
      rw [List.length_cons, ih r hnd.2 hrnd (fun k hk => by
        have := hsub k hk
        rw [List.map_cons, List.mem_cons] at this
        rcases this with h₁ | h₁
        · exact absurd (h₁ ▸ hk) hx
        · exact h₁)]
      simp only [List.length_cons] at hrlen ⊢
      have hr₂ : r.length ≤ (l'.map Prod.fst).length := by
        have hsp : List.Subperm r (l'.map Prod.fst) :=
          hrnd.subperm (fun k hk => by
            have := hsub k hk
            rw [List.map_cons, List.mem_cons] at this
            rcases this with h₁ | h₁
            · exact absurd (h₁ ▸ hk) hx
            · exact h₁)
        exact List.Subperm.length_le hsp
      rw [List.length_map] at hr₂
      omega

/-- What pruning does to an over-full table whose strictly freshest entry is
p: the result keeps exactly floor(0.8 * maxStates) entries and p is among
them. -/
theorem prune_spec (cfg : QLearningRouterConfig)
    (table : List (String × QEntry)) (p : String × QEntry)
    (hnd : (table.map Prod.fst).Nodup) (hp : p ∈ table)
    (hmaxLU : ∀ q ∈ table, q ≠ p → q.2.lastUpdate < p.2.lastUpdate)
    (hbig : cfg.maxStates < table.length)
    (hkeep : 1 ≤ 4 * cfg.maxStates / 5) :
    (pruneQTable cfg table).length = 4 * cfg.maxStates / 5
    ∧ p ∈ pruneQTable cfg table := by
  have hperm : List.Perm (sortByLU table) table := sortByLU_perm table
  have hkeysperm : List.Perm ((sortByLU table).map Prod.fst)
      (table.map Prod.fst) := hperm.map Prod.fst
  have hsortnd : ((sortByLU table).map Prod.fst).Nodup :=
    (hkeysperm.nodup_iff).mpr hnd
  have hsortlen : (sortByLU table).length = table.length := hperm.length_eq
  have hkeep_le : 4 * cfg.maxStates / 5 ≤ cfg.maxStates := by omega
  -- the removed keys: a Nodup list of present keys
  have hremnd : (((sortByLU table).take
      ((sortByLU table).length - 4 * cfg.maxStates / 5)).map Prod.fst).Nodup := by
    rw [List.map_take]
    exact List.Nodup.sublist (List.take_sublist _ _) hsortnd
  have hremsub : ∀ k ∈ ((sortByLU table).take
      ((sortByLU table).length - 4 * cfg.maxStates / 5)).map Prod.fst,
      k ∈ table.map Prod.fst := by
    intro k hk
    rcases List.mem_map.mp hk with ⟨q, hq, hfst⟩
    have hq₂ : q ∈ sortByLU table := List.mem_of_mem_take hq
    exact List.mem_map.mpr ⟨q, hperm.mem_iff.mp hq₂, hfst⟩
  have hremlen : (((sortByLU table).take
      ((sortByLU table).length - 4 * cfg.maxStates / 5)).map Prod.fst).length
      = (sortByLU table).length - 4 * cfg.maxStates / 5 := by
    rw [List.length_map, List.length_take]
    omega
  -- p's key is not among the removed keys
  have hpnotrem : p.1 ∉ ((sortByLU table).take
      ((sortByLU table).length - 4 * cfg.maxStates / 5)).map Prod.fst := by
    intro habs
    rcases List.mem_map.mp habs with ⟨b, hb, hfst⟩
    have hbsort : b ∈ sortByLU table := List.mem_of_mem_take hb
    have hbtable : b ∈ table := hperm.mem_iff.mp hbsort
    have hbp : b = p := eq_of_mem_keys_nodup table hnd b p hbtable hp hfst
    subst hbp
    -- b is in the removed region; produce a later, hence not-smaller, entry
    have hsplit : (sortByLU table).take
        ((sortByLU table).length - 4 * cfg.maxStates / 5)
        ++ (sortByLU table).drop
        ((sortByLU table).length - 4 * cfg.maxStates / 5) = sortByLU table :=
      List.take_append_drop _ _
    have hpairwise : List.Pairwise luLE (sortByLU table) := sortByLU_pairwise table
    have hdroplen : 0 < ((sortByLU table).drop
        ((sortByLU table).length - 4 * cfg.maxStates / 5)).length := by
      rw [List.length_drop]
      omega
    rcases List.exists_mem_of_length_pos hdroplen with ⟨c, hc⟩
    have hpc : luLE b c := by
      rw [← hsplit] at hpairwise
      exact (List.pairwise_append.mp hpairwise).2.2 b hb c hc
    have hcsort : c ∈ sortByLU table := by
      rw [← hsplit]
      exact List.mem_append_right _ hc
    have hctable : c ∈ table := hperm.mem_iff.mp hcsort
    by_cases hcb : c = b
    · -- b would occur in both the kept and removed region
      have hsortnodup : (sortByLU table).Nodup :=
        (hperm.nodup_iff).mpr (List.Nodup.of_map Prod.fst hnd)
      rw [← hsplit] at hsortnodup
      exact (List.disjoint_of_nodup_append hsortnodup) hb (hcb ▸ hc)
    · have := hmaxLU c hctable hcb
      rw [luLE] at hpc
      omega
  constructor
  · rw [pruneQTable]
    rw [length_filter_not_mem_keys table _ hnd hremnd
      (fun k hk => hremsub k hk)]
    rw [hremlen]
    omega
  · rw [pruneQTable]
    refine List.mem_filter.mpr ⟨hp, ?_⟩
    rw [contains_eq_false_of_not_mem hpnotrem]
    rfl

theorem alistGet_isSome_of_mem {α : Type} (l : List (String × α))
    (k : String) (h : k ∈ l.map Prod.fst) : ∃ v, alistGet l k = some v := by
  induction l with
  | nil => simp at h
  | cons q rest ih =>
    by_cases hq : q.1 = k
    · exact ⟨q.2, by rw [alistGet, if_pos hq]⟩
    · rw [List.map_cons, List.mem_cons] at h
      rcases h with h₁ | h₁
      · exact absurd h₁.symm hq
      · rcases ih h₁ with ⟨v, hv⟩
        exact ⟨v, by rw [alistGet, if_neg hq, hv]⟩

/-- The Q-table a successful update() leaves behind: write the updated entry
(whose lastUpdate is the call time) into the get-or-created table, then
prune if over capacity. -/
theorem update_qTable_eq (cfg : QLearningRouterConfig) (s : RouterState)
    (text action : String) (reward : ℚ) (next : Option String) (now : ℕ)
    (i : ℕ) (hidx : indexOfO ROUTE_NAMES action = some i) :
    ∃ e : QEntry,
    ((update cfg s text action reward next now).2).qTable
      = updateTable cfg (getOrCreateTable cfg s.qTable (hashState text) now)
          (hashState text) e
    ∧ e.lastUpdate = now := by
  simp only [update, hidx]
  exact ⟨_, rfl, rfl⟩

/-- Properties of getOrCreateTable. -/
theorem getOrCreateTable_spec (cfg : QLearningRouterConfig)
    (table : List (String × QEntry)) (stateKey : String) (now : ℕ)
    (hnd : (table.map Prod.fst).Nodup) :
    ((getOrCreateTable cfg table stateKey now).map Prod.fst).Nodup
    ∧ stateKey ∈ (getOrCreateTable cfg table stateKey now).map Prod.fst
    ∧ (∀ q ∈ getOrCreateTable cfg table stateKey now,
        q ∈ table ∨ q = (stateKey, freshEntry cfg now))
    ∧ (getOrCreateTable cfg table stateKey now).length
        = (if stateKey ∈ table.map Prod.fst then table.length
           else table.length + 1) := by
  by_cases hmem : stateKey ∈ table.map Prod.fst
  · rcases alistGet_isSome_of_mem table stateKey hmem with ⟨v, hv⟩
    rw [getOrCreateTable, hv]
    exact ⟨hnd, hmem, fun q hq => Or.inl hq, by rw [if_pos hmem]⟩
  · rw [getOrCreateTable, alistGet_eq_none_of_not_mem table stateKey hmem]
    refine ⟨?_, ?_, ?_, ?_⟩
    · rw [List.map_append]
      refine List.Nodup.append hnd (List.nodup_singleton _) ?_
      intro x hx hx₂
      simp only [List.map_cons, List.map_nil, List.mem_singleton] at hx₂
      exact hmem (hx₂ ▸ hx)
    · rw [List.map_append]
      refine List.mem_append_right _ ?_
      simp
    · intro q hq
      rcases List.mem_append.mp hq with h₁ | h₁
      · exact Or.inl h₁
      · exact Or.inr (List.mem_singleton.mp h₁)
    · rw [if_neg hmem, List.length_append, List.length_singleton]

/-- What a successful over-capacity update does to the table: with at least
two allowed states and a strictly fresh timestamp, the pruned table holds
exactly floor(0.8 * maxStates) entries and the updated key is one of them. -/
theorem updateTable_spec (cfg : QLearningRouterConfig)
    (table₁ : List (String × QEntry)) (stateKey : String) (e : QEntry)
    (hnd : (table₁.map Prod.fst).Nodup)
    (hkey : stateKey ∈ table₁.map Prod.fst)
    (hts : ∀ q ∈ table₁, q.1 ≠ stateKey → q.2.lastUpdate < e.lastUpdate)
    (hbig : cfg.maxStates < table₁.length) (hmax2 : 2 ≤ cfg.maxStates) :
    (updateTable cfg table₁ stateKey e).length = 4 * cfg.maxStates / 5
    ∧ stateKey ∈ (updateTable cfg table₁ stateKey e).map Prod.fst := by
  have hlen₂ : (alistSet table₁ stateKey e).length = table₁.length :=
    alistSet_length_of_mem table₁ stateKey e hkey
  have hnd₂ : ((alistSet table₁ stateKey e).map Prod.fst).Nodup :=
    alistSet_keys_nodup table₁ stateKey e hnd
  have hpmem : (stateKey, e) ∈ alistSet table₁ stateKey e :=
    alistSet_self_mem table₁ stateKey e
  have hmaxLU : ∀ q ∈ alistSet table₁ stateKey e, q ≠ (stateKey, e) →
      q.2.lastUpdate < e.lastUpdate := by
    intro q hq hqne
    rcases mem_alistSet table₁ stateKey e q hnd hq with h₁ | h₁
    · exact absurd h₁ hqne
    · exact hts q h₁.1 h₁.2
  have hbig₂ : cfg.maxStates < (alistSet table₁ stateKey e).length := by
    omega
  have hkeep : 1 ≤ 4 * cfg.maxStates / 5 := by omega
  have hspec := prune_spec cfg (alistSet table₁ stateKey e) (stateKey, e)
    hnd₂ hpmem hmaxLU hbig₂ hkeep
  rw [updateTable]
  rw [if_pos (by omega : (alistSet table₁ stateKey e).length > cfg.maxStates)]
  exact ⟨hspec.1, List.mem_map.mpr ⟨(stateKey, e), hspec.2, rfl⟩⟩

/-- C5 (amended): if a successful update() makes the Q-table exceed
maxStates, the table is pruned down to exactly floor(0.8 * maxStates)
entries, which does not exceed maxStates; and provided maxStates is at least
2 (so 80% of capacity is at least one entry) and the update's timestamp is
strictly newer than every stored entry's, the entry being updated survives
the pruning. -/
theorem update_prune_capacity (cfg : QLearningRouterConfig) (s : RouterState)
    (text action : String) (reward : ℚ) (next : Option String) (now : ℕ)
    (hnd : (s.qTable.map Prod.fst).Nodup)
    (hclock : ∀ p ∈ s.qTable, p.2.lastUpdate < now)
    (hmax2 : 2 ≤ cfg.maxStates)
    (hact : action ∈ ROUTE_NAMES)
    (hbig : cfg.maxStates < (if hashState text ∈ s.qTable.map Prod.fst
        then s.qTable.length else s.qTable.length + 1)) :
    ((update cfg s text action reward next now).2).qTable.length
        = 4 * cfg.maxStates / 5
    ∧ ((update cfg s text action reward next now).2).qTable.length
        ≤ cfg.maxStates
    ∧ hashState text
        ∈ ((update cfg s text action reward next now).2).qTable.map Prod.fst := by
  rcases indexOfO_isSome_of_mem ROUTE_NAMES action hact with ⟨i, hidx⟩
  rcases update_qTable_eq cfg s text action reward next now i hidx
    with ⟨e, htable, hlu⟩
  rcases getOrCreateTable_spec cfg s.qTable (hashState text) now hnd
    with ⟨hnd₁, hkey₁, hmem₁, hlen₁⟩
  have hts : ∀ q ∈ getOrCreateTable cfg s.qTable (hashState text) now,
      q.1 ≠ hashState text → q.2.lastUpdate < e.lastUpdate := by
    intro q hq hqk
    rcases hmem₁ q hq with h₁ | h₁
    · rw [hlu]
      exact hclock q h₁
    · exact absurd (congrArg Prod.fst h₁) hqk
  have hbig₁ : cfg.maxStates
      < (getOrCreateTable cfg s.qTable (hashState text) now).length := by
    rw [hlen₁]
    exact hbig
  have hspec := updateTable_spec cfg
    (getOrCreateTable cfg s.qTable (hashState text) now) (hashState text) e
    hnd₁ hkey₁ hts hbig₁ hmax2
  rw [htable]
  exact ⟨hspec.1, by omega, hspec.2⟩

/-- A router (capacity 1) holding one old entry. -/
def sC5 : RouterState :=
  { initState DEFAULT_CONFIG with
    qTable := [("state_0", (⟨List.replicate 8 0, 1, 0⟩ : QEntry))] }

/-- C5 counterexample: with maxStates = 1, an update on a new state key makes
the table size 2 > maxStates; pruning then evicts down to
floor(0.8 * 1) = 0 entries — the entry being updated in that same call is
evicted too, and the resulting table is empty. -/
theorem prune_evicts_updated_entry :
    ({ DEFAULT_CONFIG with maxStates := 1 } : QLearningRouterConfig).maxStates
      < (if hashState "x" ∈ sC5.qTable.map Prod.fst then sC5.qTable.length
         else sC5.qTable.length + 1)
    ∧ ((update { DEFAULT_CONFIG with maxStates := 1 } sC5 "x" "coder" 1
        none 1).2).qTable = []
    ∧ hashState "x" ∉ ((update { DEFAULT_CONFIG with maxStates := 1 } sC5 "x"
        "coder" 1 none 1).2).qTable.map Prod.fst := by
  refine ⟨by decide, ?_, ?_⟩ <;> decide

/-- A router (capacity 2) holding two old entries. -/
def sC5b : RouterState :=
  { initState DEFAULT_CONFIG with
    qTable := [("state_0", (⟨List.replicate 8 0, 1, 0⟩ : QEntry)),
               ("state_120", (⟨List.replicate 8 0, 1, 1⟩ : QEntry))] }

/-- Witness for C5 (amended) at a concrete over-capacity update. -/
theorem update_prune_capacity_witness :
    (2 ≤ ({ DEFAULT_CONFIG with maxStates := 2 } : QLearningRouterConfig).maxStates)
    ∧ "coder" ∈ ROUTE_NAMES
    ∧ ((update { DEFAULT_CONFIG with maxStates := 2 } sC5b "y" "coder" 1
        none 5).2).qTable.length = 1
    ∧ hashState "y" ∈ ((update { DEFAULT_CONFIG with maxStates := 2 } sC5b "y"
        "coder" 1 none 5).2).qTable.map Prod.fst := by
  have h := update_prune_capacity { DEFAULT_CONFIG with maxStates := 2 } sC5b
    "y" "coder" 1 none 5 (by decide) (by decide) (by decide) (by decide)
    (by decide)
  refine ⟨by decide, by decide, ?_, h.2.2⟩
  have h₁ := h.1
  simpa using h₁
